import Mathlib

/-!
Shallow embedding of `keeperbot/AddressBook/addressbook.py` (class `AddressBook`).

The `AddressBook` stores contacts in a Python `dict` (`self.data`) mapping a
contact's name (a string) to its `Record`.  We embed the dict as an
association list with unique keys (a Python dict cannot hold a key twice);
all operations work on the first occurrence of a key, which coincides with
the unique occurrence on every state a Python dict can represent.

`Record` and `Note` are external collaborators (defined in `record.py`,
outside the studied core); their fields below follow the collaborator
contract of the specification: a record has a `name` field object with a
string `value`, a list of phone objects each with a string `value`, an
optional birthday date, a list of notes, an `owner` flag, and generic
named attributes with string renderings; a note has a `title`, a body and
a set of string tags.

Python `datetime.date` values are embedded as year/month/day triples;
`date.replace(year=...)` validates the resulting day against the new
year's month length and raises `ValueError` when it is invalid (e.g.
February 29 projected onto a non-leap year), which we model with `Option`.
Mutating methods of `AddressBook` are embedded as functions returning the
result of the call (an `Except` when the Python code can raise) together
with the dictionary state after the call, so that "the mapping is
unchanged on failure" is a provable statement rather than a modelling
assumption.
-/

namespace KeeperBot

/-- A phone value object: `number.value` is the stored string. -/
structure Phone where
  value : String
deriving DecidableEq

/-- A note entity: `title`, body content and a set of string tags
(`note.tags`; Python iterates the set, which only ever feeds
order-insensitive `any`/membership tests here, so a list embeds it). -/
structure Note where
  title : String
  body : String
  tags : List String
deriving DecidableEq

/-- A Python `datetime.date`: year, month, day. -/
structure PyDate where
  year : Int
  month : Nat
  day : Nat
deriving DecidableEq

/-- The record's `name` field object; `record.name.value` is the string. -/
structure RName where
  value : String
deriving DecidableEq

/-- A contact record (external collaborator contract).  `birthday` collapses
the Python `record.birthday` object: `none` when the attribute is falsy,
`some d` when `record.birthday.value` is the date `d`.  `attrs` models the
spec's generic attribute capability ("generic attribute access by name
... plus a full attribute-enumeration capability"): attribute name mapped
to the attribute value's string rendering. -/
structure Record where
  name : RName
  phones : List Phone
  birthday : Option PyDate
  notes : List Note
  owner : Bool
  attrs : List (String × String)
deriving DecidableEq

/-- Modelled from the spec: `Record.edit_name` is the Record's own
name-update operation (defined in the external `record.py`): it "updates
the Record's internal name field" to the given string. -/
def Record.edit_name (r : Record) (newName : String) : Record :=
  { r with name := ⟨newName⟩ }

/-- The failure taxonomy of the spec: `invalidRecord` embeds the
`ValueError("Invalid record.")` of `add_record`, `notFound` the
`ValueError`/`KeyError` of `delete` and `update_name`. -/
inductive Err where
  | invalidRecord
  | notFound
deriving DecidableEq

/-- The `self.data` dict: insertion-ordered association list name ↦ record. -/
abbrev Dict := List (String × Record)

/-- Keys of the dict, in iteration order. -/
def keys (d : Dict) : List String := d.map Prod.fst

/-- `self.data.values()`, in iteration order. -/
def dvalues (d : Dict) : List Record := d.map Prod.snd

/-- A dict a Python `dict` can actually be: keys occur at most once. -/
def WF (d : Dict) : Prop := (keys d).Nodup

/-- `self.data.get(k, None)`. -/
def dget (k : String) : Dict → Option Record
  | [] => none
  | (k', v) :: rest => if k' = k then some v else dget k rest

/-- `k in self.data`. -/
def dcontains (k : String) (d : Dict) : Bool := (dget k d).isSome

/-- `self.data[k] = v`: replace the value at `k` in place if the key is
present, otherwise append a new entry at the end. -/
def dinsert (k : String) (v : Record) : Dict → Dict
  | [] => [(k, v)]
  | (k', v') :: rest =>
    if k' = k then (k, v) :: rest else (k', v') :: dinsert k v rest

/-- `del self.data[k]` (the caller has checked the key is present). -/
def ddel (k : String) : Dict → Dict
  | [] => []
  | (k', v') :: rest => if k' = k then rest else (k', v') :: ddel k rest

/-- `self.data.pop(k)`: `none` embeds the `KeyError` raised when the key
is absent. -/
def dpop (k : String) : Dict → Option (Record × Dict)
  | [] => none
  | (k', v') :: rest =>
    if k' = k then some (v', rest)
    else (dpop k rest).map (fun p => (p.1, (k', v') :: p.2))

/-- In-place mutation of the record object stored at key `k`
(`self.data[k].method(...)`). -/
def dmodify (k : String) (f : Record → Record) : Dict → Dict
  | [] => []
  | (k', v') :: rest =>
    if k' = k then (k, f v') :: rest else (k', v') :: dmodify k f rest

/-- The invariant of the directory: every key equals the stored record's
internal name. -/
def Inv (d : Dict) : Prop := ∀ e ∈ d, (e.2 : Record).name.value = e.1

instance : DecidablePred Inv := fun d =>
  decidable_of_iff (∀ e ∈ d, (e.2 : Record).name.value = e.1) Iff.rfl

instance : DecidablePred WF := fun d =>
  decidable_of_iff ((keys d).Nodup) Iff.rfl

/-- The argument passed to `add_record`: Python is untyped, so the caller
may pass a genuine `Record` or any other value (rejected by the
`isinstance` check). -/
inductive AddArg where
  | record (r : Record)
  | nonRecord
deriving DecidableEq

/-- `AddressBook.add_record`: raise `ValueError` unless the argument is a
`Record` with a truthy (non-empty) `name.value`; otherwise
`self.data[record.name.value] = record`. -/
def add_record (d : Dict) (arg : AddArg) : Except Err Unit × Dict :=
  match arg with
  | .nonRecord => (.error .invalidRecord, d)
  | .record r =>
    if r.name.value = "" then (.error .invalidRecord, d)
    else (.ok (), dinsert r.name.value r d)

/-- `AddressBook.get_owner`: first record of the iteration with a truthy
`owner` attribute, else `None`.  The method only reads `self.data`; the
second component is the mapping it leaves behind. -/
def get_owner (d : Dict) : Option Record × Dict :=
  ((dvalues d).find? (fun r => r.owner), d)

/-- `AddressBook.find_phone`: first record one of whose phone numbers has
`phone == number.value`, else `None`. -/
def find_phone (d : Dict) (phone : String) : Option Record × Dict :=
  ((dvalues d).find? (fun r => r.phones.any (fun number => phone = number.value)), d)

/-- `AddressBook.find_contact`: `self.data.get(name, None)`. -/
def find_contact (d : Dict) (name : String) : Option Record × Dict :=
  (dget name d, d)

/-- `AddressBook.delete`: delete the entry and return `'Contact deleted.'`
if `name in self.data`, otherwise raise (`notFound`). -/
def delete (d : Dict) (name : String) : Except Err String × Dict :=
  if dcontains name d then (.ok "Contact deleted.", ddel name d)
  else (.error .notFound, d)

/-- `AddressBook.update_name`:
`self.data[new_name] = self.data.pop(name)` — the `pop` raises `KeyError`
(before any mutation) when `name` is absent — then
`return self.data[new_name].edit_name(new_name)`, which mutates the
record object just stored under `new_name`. -/
def update_name (d : Dict) (name new_name : String) : Except Err Record × Dict :=
  match dpop name d with
  | none => (.error .notFound, d)
  | some (r, d₁) =>
    (.ok (r.edit_name new_name),
      dmodify new_name (fun x => x.edit_name new_name) (dinsert new_name r d₁))

/-- Gregorian leap-year test (as used by Python `datetime`). -/
def isLeap (y : Int) : Bool := (y % 4 == 0 && y % 100 != 0) || y % 400 == 0

/-- Length of a month in year `y` (0 for an out-of-range month number). -/
def daysInMonth (y : Int) (m : Nat) : Nat :=
  match m with
  | 1 => 31
  | 2 => if isLeap y then 29 else 28
  | 3 => 31
  | 4 => 30
  | 5 => 31
  | 6 => 30
  | 7 => 31
  | 8 => 31
  | 9 => 30
  | 10 => 31
  | 11 => 30
  | 12 => 31
  | _ => 0

/-- `date.replace(year=y)`: rebuilds the date with the new year, raising
`ValueError` (here `none`) when the month/day is not a valid date of
year `y` — e.g. February 29 in a non-leap year. -/
def pyReplaceYear (d : PyDate) (y : Int) : Option PyDate :=
  if 1 ≤ d.month ∧ d.month ≤ 12 ∧ 1 ≤ d.day ∧ d.day ≤ daysInMonth y d.month then
    some ⟨y, d.month, d.day⟩
  else none

/-- Python date comparison `<`: lexicographic on (year, month, day). -/
def dateLt (a b : PyDate) : Bool :=
  a.year < b.year ||
    (a.year == b.year && (a.month < b.month || (a.month == b.month && a.day < b.day)))

/-- Days in year `y` strictly before month `m`. -/
def daysBeforeMonth (y : Int) : Nat → Nat
  | 0 => 0
  | m + 1 => daysBeforeMonth y m + daysInMonth y m

/-- Proleptic-Gregorian ordinal of a date (days; the value
`(a - b).days` of Python date subtraction is `toOrdinal a - toOrdinal b`). -/
def toOrdinal (d : PyDate) : Int :=
  365 * (d.year - 1) + (d.year - 1).fdiv 4 - (d.year - 1).fdiv 100
    + (d.year - 1).fdiv 400 + (daysBeforeMonth d.year d.month : Int) + (d.day : Int)

/-- `(a - b).days` for Python dates. -/
def dateSub (a b : PyDate) : Int := toOrdinal a - toOrdinal b

/-- The projection step of `get_upcoming_birthdays` for one birthday:
`birthday_this_year = birthday.replace(year=today.year)`, then if that is
strictly before today, `replace(year=today.year + 1)`.  `none` embeds the
`ValueError` a `replace` can raise. -/
def projectThisYear (today b : PyDate) : Option PyDate :=
  match pyReplaceYear b today.year with
  | none => none
  | some bty => if dateLt bty today then pyReplaceYear bty (today.year + 1) else some bty

/-- The record loop of `get_upcoming_birthdays`: records without a truthy
`birthday` are skipped; a `ValueError` from `replace` aborts the whole
call (`none`); a record is appended when `0 <= delta_days <= n_days`. -/
def upcomingAux (today : PyDate) (n : Int) : List Record → Option (List Record)
  | [] => some []
  | r :: rs =>
    match r.birthday with
    | none => upcomingAux today n rs
    | some b =>
      match projectThisYear today b with
      | none => none
      | some bty =>
        match upcomingAux today n rs with
        | none => none
        | some rest =>
          if 0 ≤ dateSub bty today ∧ dateSub bty today ≤ n then some (r :: rest)
          else some rest

/-- `AddressBook.get_upcoming_birthdays` with `datetime.today().date()`
made an explicit parameter.  `none` embeds an uncaught `ValueError`. -/
def get_upcoming_birthdays (today : PyDate) (d : Dict) (n : Int) : Option (List Record) :=
  upcomingAux today n (dvalues d)

/-- `needle` is a prefix of `hay` (character lists). -/
def isPre : List Char → List Char → Bool
  | [], _ => true
  | _ :: _, [] => false
  | a :: as, b :: bs => a == b && isPre as bs

/-- `needle` occurs contiguously in `hay` (character lists). -/
def listSub (needle : List Char) : List Char → Bool
  | [] => isPre needle []
  | b :: rest => isPre needle (b :: rest) || listSub needle rest

/-- Python substring test `needle in hay` on strings. -/
def pyInStr (needle hay : String) : Bool := listSub needle.toList hay.toList

/-- `result.add(item)` on the Python set accumulating search results:
a no-op when the record is already present.  (We keep first-insertion
order as the representative of the set's unspecified order.) -/
def setAdd (item : Record) (result : List Record) : List Record :=
  if item ∈ result then result else result ++ [item]

/-- `getattr(item, field)` / `hasattr(item, field)` over the record's
generic attributes (string renderings, see `Record.attrs`). -/
def lookupAttr (item : Record) (field : String) : Option String :=
  (item.attrs.find? (fun kv => kv.1 == field)).map Prod.snd

/-- One iteration of the `find_contacts_by_field` loop: the `elif` chain
dispatching on the field name, adding `item` to the result set when its
branch matches.

* "phone"/"phones": `value in item.phones` (equality with a phone's
  stored form, per the collaborator contract) or a case-sensitive
  substring of a phone's string rendering;
* "note": equality with a note's stored form or a case-insensitive
  substring of its rendering;
* "tag": the `if item.notes:` guard, then the note loop that adds the
  item and breaks as soon as one tag's rendering contains `value.lower()`
  — so the item is added exactly when some note has some matching tag;
* any existing attribute name: equality or case-insensitive substring of
  the attribute's rendering;
* "all" (only reached when no attribute is literally named "all"): the
  same test over every attribute value. -/
def fcbfStep (phoneStr : Phone → String) (noteStr : Note → String)
    (field value : String) (result : List Record) (item : Record) : List Record :=
  if field == "phone" || field == "phones" then
    if item.phones.any (fun p => p.value == value)
        || item.phones.any (fun p => pyInStr value (phoneStr p)) then
      setAdd item result
    else result
  else if field == "note" then
    if item.notes.any (fun nt => noteStr nt == value)
        || item.notes.any (fun nt => pyInStr value.toLower (noteStr nt).toLower) then
      setAdd item result
    else result
  else if field == "tag" then
    if !item.notes.isEmpty
        && item.notes.any (fun nt => nt.tags.any (fun tg => pyInStr value.toLower tg.toLower)) then
      setAdd item result
    else result
  else
    match lookupAttr item field with
    | some a =>
      if a == value || pyInStr value.toLower a.toLower then setAdd item result else result
    | none =>
      if field == "all" then
        if item.attrs.any (fun kv => kv.2 == value || pyInStr value.toLower kv.2.toLower) then
          setAdd item result
        else result
      else result

/-- `AddressBook.find_contacts_by_field`: fold the dispatch over the
records in iteration order, starting from the empty result set.  The
string renderings of the external `Phone` and `Note` objects are
parameters of the embedding. -/
def find_contacts_by_field (phoneStr : Phone → String) (noteStr : Note → String)
    (d : Dict) (field value : String) : List Record :=
  (dvalues d).foldl (fcbfStep phoneStr noteStr field value) []

/-- The sort key order of `sort_records`: ascending `record.name.value`. -/
def nameLe (a b : Record) : Prop := a.name.value ≤ b.name.value

instance : DecidableRel nameLe := fun a b =>
  inferInstanceAs (Decidable (a.name.value ≤ b.name.value))

instance : IsTotal Record nameLe := ⟨fun a b => le_total a.name.value b.name.value⟩

instance : IsTrans Record nameLe := ⟨fun _ _ _ h h' => le_trans h h'⟩

/-- The dict comprehension `{record.name.value: record for record in rs}`:
entries are assigned left to right (`d[k] = v` semantics of `dinsert`). -/
def dictOfList (rs : List Record) : Dict :=
  rs.foldl (fun acc r => dinsert r.name.value r acc) []

/-- `AddressBook.sort_records`: `sorted(self.data.values(), key=name)` —
Python's `sorted` is the stable sort by the key, which insertion sort
with `≤` on keys computes — then rebuild `self.data` by comprehension. -/
def sort_records (d : Dict) : Dict :=
  dictOfList (List.insertionSort nameLe (dvalues d))

/-- `AddressBook.find_note_by_title`: first note, scanning records in
iteration order and each record's notes in order, whose title equals the
query; `None` when there is none. -/
def find_note_by_title (d : Dict) (note_title : String) : Option Note :=
  ((dvalues d).flatMap (fun r => r.notes)).find? (fun nt => nt.title == note_title)

/-- `record.notes.remove(note)` for the first note whose title is `t`:
`list.remove` deletes the first element equal to its argument, and no
note before the first title match can equal it (equal notes share a
title), so exactly that first matching note is removed.  `none` when no
note matches. -/
def removeFirstTitle (t : String) : List Note → Option (List Note)
  | [] => none
  | nt :: rest =>
    if nt.title == t then some rest
    else (removeFirstTitle t rest).map (fun ns => nt :: ns)

/-- `AddressBook.delete_note_by_title`: scan records in iteration order;
in the first record owning a note with the given title, remove that note
in place and return.  A call with no match falls off the loop (no-op). -/
def delete_note_by_title : Dict → String → Dict
  | [], _ => []
  | (k, r) :: rest, t =>
    match removeFirstTitle t r.notes with
    | some ns => (k, { r with notes := ns }) :: rest
    | none => (k, r) :: delete_note_by_title rest t

/-- `AddressBook.find_notes_by_tag`: every note, across records in
iteration order and notes in order, whose tag set contains `tag`
exactly.  A read: the second component is the mapping after the call. -/
def find_notes_by_tag (d : Dict) (tag : String) : List Note × Dict :=
  ((dvalues d).flatMap (fun r => r.notes.filter (fun nt => nt.tags.contains tag)), d)

/-- The specification's matching rule for `findByField("tag", value)`:
the record has at least one note with at least one tag whose string
rendering (a tag is a string; its rendering is itself) contains `value`
as a case-insensitive substring. -/
def tagMatches (value : String) (r : Record) : Prop :=
  ∃ nt ∈ r.notes, ∃ tg ∈ nt.tags, pyInStr value.toLower tg.toLower = true

instance (value : String) : DecidablePred (tagMatches value) := fun r =>
  decidable_of_iff (∃ nt ∈ r.notes, ∃ tg ∈ nt.tags, pyInStr value.toLower tg.toLower = true)
    Iff.rfl

/-- Number of notes across the whole directory bearing a given title. -/
def countTitled (t : String) (d : Dict) : Nat :=
  ((dvalues d).flatMap (fun r => r.notes)).countP (fun nt => nt.title == t)

/-! Concrete states used by witnesses and counterexamples. -/

/-- "Alice": phone 123, birthday October 17, a note tagged Work/urgent. -/
def recAlice : Record :=
  { name := ⟨"Alice"⟩, phones := [⟨"123"⟩], birthday := some ⟨1990, 10, 17⟩,
    notes := [{ title := "todo", body := "meeting", tags := ["Work", "urgent"] }],
    owner := false, attrs := [] }

/-- "Bob": phone 456, birthday October 22, no notes. -/
def recBob : Record :=
  { name := ⟨"Bob"⟩, phones := [⟨"456"⟩], birthday := some ⟨1991, 10, 22⟩,
    notes := [], owner := true, attrs := [] }

/-- A two-contact directory satisfying the key/name invariant. -/
def bookAB : Dict := [("Alice", recAlice), ("Bob", recBob)]

/-- A contact whose birthday is February 29 of a leap year. -/
def recLeap : Record :=
  { name := ⟨"Leap"⟩, phones := [], birthday := some ⟨2000, 2, 29⟩,
    notes := [], owner := false, attrs := [] }

/-- A directory containing the February-29 contact. -/
def bookLeap : Dict := [("Leap", recLeap)]

/-- A contact holding two distinct notes that share the title "t". -/
def recTwoNotes : Record :=
  { name := ⟨"N"⟩, phones := [], birthday := none,
    notes := [{ title := "t", body := "first", tags := [] },
              { title := "t", body := "second", tags := [] }],
    owner := false, attrs := [] }

/-- A directory whose only record owns two same-titled notes. -/
def bookTwoNotes : Dict := [("N", recTwoNotes)]

/-- A record whose name string is empty (falsy in Python). -/
def recEmpty : Record :=
  { name := ⟨""⟩, phones := [], birthday := none, notes := [], owner := false, attrs := [] }

/-! Helper lemmas about the dict embedding. -/

theorem dget_eq_none_of_not_mem {k : String} :
    ∀ {d : Dict}, k ∉ keys d → dget k d = none
  | [], _ => rfl
  | (k', v) :: rest, h => by
    simp only [keys, List.map_cons, List.mem_cons, not_or] at h
    rw [dget, if_neg (fun hk => h.1 hk.symm)]
    exact dget_eq_none_of_not_mem (by simpa [keys] using h.2)

theorem mem_of_mem_ddel {k : String} :
    ∀ {d : Dict} {e}, e ∈ ddel k d → e ∈ d
  | (k', v) :: rest, e, h => by
    rw [ddel] at h
    by_cases hk : k' = k
    · rw [if_pos hk] at h
      exact List.mem_cons_of_mem _ h
    · rw [if_neg hk] at h
      rcases List.mem_cons.mp h with h | h
      · exact h ▸ List.mem_cons_self _ _
      · exact List.mem_cons_of_mem _ (mem_of_mem_ddel h)

theorem dget_ddel_of_wf {k : String} :
    ∀ {d : Dict}, WF d → dget k (ddel k d) = none
  | [], _ => rfl
  | (k', v) :: rest, h => by
    rw [WF, keys, List.map_cons, List.nodup_cons] at h
    rw [ddel]
    by_cases hk : k' = k
    · rw [if_pos hk]
      exact dget_eq_none_of_not_mem (hk ▸ h.1)
    · rw [if_neg hk, dget, if_neg hk]
      exact dget_ddel_of_wf h.2

theorem dpop_mem_rest {k : String} :
    ∀ {d : Dict} {r d₁}, dpop k d = some (r, d₁) → ∀ e ∈ d₁, e ∈ d
  | [], r, d₁, h => by simp [dpop] at h
  | (k', v) :: rest, r, d₁, h => by
    rw [dpop] at h
    by_cases hk : k' = k
    · rw [if_pos hk] at h
      cases h
      exact fun e he => List.mem_cons_of_mem _ he
    · rw [if_neg hk] at h
      cases hrec : dpop k rest with
      | none => rw [hrec] at h; simp at h
      | some p =>
        rw [hrec] at h
        simp only [Option.map] at h
        cases h
        intro e he
        rcases List.mem_cons.mp he with h | h
        · exact h ▸ List.mem_cons_self _ _
        · exact List.mem_cons_of_mem _ (dpop_mem_rest hrec e h)

theorem dget_dinsert_self (k : String) (v : Record) :
    ∀ d : Dict, dget k (dinsert k v d) = some v
  | [] => by simp [dinsert, dget]
  | (k', v') :: rest => by
    rw [dinsert]
    by_cases hk : k' = k
    · rw [if_pos hk, dget, if_pos rfl]
    · rw [if_neg hk, dget, if_neg hk]
      exact dget_dinsert_self k v rest

theorem dmodify_dinsert (k : String) (f : Record → Record) (v : Record) :
    ∀ d : Dict, dmodify k f (dinsert k v d) = dinsert k (f v) d
  | [] => by simp [dinsert, dmodify]
  | (k', v') :: rest => by
    rw [dinsert]
    by_cases hk : k' = k
    · rw [if_pos hk, dmodify, if_pos rfl, dinsert, if_pos hk]
    · rw [if_neg hk, dmodify, if_neg hk, dinsert, if_neg hk, dmodify_dinsert]

theorem inv_dinsert {k : String} {v : Record} (hv : v.name.value = k) :
    ∀ {d : Dict}, Inv d → Inv (dinsert k v d)
  | [], _ => by
    intro e he
    rw [dinsert] at he
    rcases List.mem_singleton.mp he with rfl
    exact hv
  | (k', v') :: rest, h => by
    rw [dinsert]
    by_cases hk : k' = k
    · rw [if_pos hk]
      intro e he
      rcases List.mem_cons.mp he with rfl | he
      · exact hv
      · exact h e (List.mem_cons_of_mem _ he)
    · rw [if_neg hk]
      intro e he
      rcases List.mem_cons.mp he with rfl | he
      · exact h _ (List.mem_cons_self _ _)
      · exact inv_dinsert hv (fun e' he' => h e' (List.mem_cons_of_mem _ he')) e he

theorem inv_ddel {k : String} {d : Dict} (h : Inv d) : Inv (ddel k d) :=
  fun e he => h e (mem_of_mem_ddel he)

theorem inv_delete_note {t : String} :
    ∀ {d : Dict}, Inv d → Inv (delete_note_by_title d t)
  | [], _ => fun e he => absurd he (List.not_mem_nil e)
  | (k, r) :: rest, h => by
    rw [delete_note_by_title]
    cases hrem : removeFirstTitle t r.notes with
    | some ns =>
      intro e he
      rcases List.mem_cons.mp he with rfl | he
      · exact h (k, r) (List.mem_cons_self _ _)
      · exact h e (List.mem_cons_of_mem _ he)
    | none =>
      intro e he
      rcases List.mem_cons.mp he with rfl | he
      · exact h _ (List.mem_cons_self _ _)
      · exact inv_delete_note (fun e' he' => h e' (List.mem_cons_of_mem _ he')) e he

theorem dpop_eq_none_of_dget {k : String} :
    ∀ {d : Dict}, dget k d = none → dpop k d = none
  | [], _ => rfl
  | (k', v) :: rest, h => by
    rw [dget] at h
    by_cases hk : k' = k
    · rw [if_pos hk] at h; exact absurd h (by simp)
    · rw [if_neg hk] at h
      rw [dpop, if_neg hk, dpop_eq_none_of_dget h]
      rfl

/-! Lemmas about the dict comprehension `dictOfList` used by `sort_records`. -/

theorem keys_cons (k : String) (v : Record) (d : Dict) :
    keys ((k, v) :: d) = k :: keys d := rfl

theorem dvalues_cons (k : String) (v : Record) (d : Dict) :
    dvalues ((k, v) :: d) = v :: dvalues d := rfl

theorem keys_dinsert_of_mem {k : String} (v : Record) :
    ∀ {d : Dict}, k ∈ keys d → keys (dinsert k v d) = keys d
  | (k', v') :: rest, h => by
    rw [dinsert]
    by_cases hk : k' = k
    · rw [if_pos hk, keys_cons, keys_cons, hk]
    · rw [keys_cons, List.mem_cons] at h
      rcases h with h | h
      · exact absurd h.symm hk
      · rw [if_neg hk, keys_cons, keys_cons, keys_dinsert_of_mem v h]

theorem dinsert_eq_append_of_not_mem {k : String} (v : Record) :
    ∀ {d : Dict}, k ∉ keys d → dinsert k v d = d ++ [(k, v)]
  | [], _ => rfl
  | (k', v') :: rest, h => by
    rw [keys_cons, List.mem_cons, not_or] at h
    rw [dinsert, if_neg (fun hk => h.1 hk.symm), List.cons_append,
      dinsert_eq_append_of_not_mem v h.2]

theorem keys_dinsert_of_not_mem {k : String} (v : Record) {d : Dict}
    (h : k ∉ keys d) : keys (dinsert k v d) = keys d ++ [k] := by
  rw [dinsert_eq_append_of_not_mem v h, keys, List.map_append]
  rfl

theorem foldl_dinsert_inv :
    ∀ (rs : List Record) {acc : Dict}, Inv acc →
      Inv (rs.foldl (fun acc r => dinsert r.name.value r acc) acc)
  | [], _, h => h
  | _r :: rs, _, h =>
    foldl_dinsert_inv rs (inv_dinsert rfl h)

theorem foldl_dinsert_wf :
    ∀ (rs : List Record) {acc : Dict}, WF acc →
      WF (rs.foldl (fun acc r => dinsert r.name.value r acc) acc)
  | [], _, h => h
  | r :: rs, acc, h => by
    rw [List.foldl_cons]
    refine foldl_dinsert_wf rs ?_
    by_cases hmem : r.name.value ∈ keys acc
    · rw [WF, keys_dinsert_of_mem r hmem]; exact h
    · rw [WF, keys_dinsert_of_not_mem r hmem]
      exact h.append (List.nodup_singleton _) (List.disjoint_singleton.mpr hmem)

theorem foldl_dinsert_keys_sublist :
    ∀ (rs : List Record) (acc : Dict),
      List.Sublist (keys (rs.foldl (fun acc r => dinsert r.name.value r acc) acc))
        (keys acc ++ rs.map (fun r => r.name.value))
  | [], acc => by simp
  | r :: rs, acc => by
    rw [List.foldl_cons, List.map_cons]
    by_cases hmem : r.name.value ∈ keys acc
    · refine (foldl_dinsert_keys_sublist rs _).trans ?_
      rw [keys_dinsert_of_mem r hmem]
      exact List.Sublist.append_left (List.sublist_cons_self _ _) _
    · refine (foldl_dinsert_keys_sublist rs _).trans ?_
      rw [keys_dinsert_of_not_mem r hmem, List.append_assoc, List.singleton_append]

theorem foldl_dinsert_eq_append :
    ∀ (rs : List Record) (acc : Dict),
      (∀ r ∈ rs, r.name.value ∉ keys acc) →
      (rs.map (fun r => r.name.value)).Nodup →
      rs.foldl (fun acc r => dinsert r.name.value r acc) acc
        = acc ++ rs.map (fun r => (r.name.value, r))
  | [], acc, _, _ => by simp
  | r :: rs, acc, hdisj, hnd => by
    rw [List.foldl_cons, dinsert_eq_append_of_not_mem r (hdisj r (List.mem_cons_self _ _)),
      List.map_cons]
    rw [List.map_cons, List.nodup_cons] at hnd
    rw [foldl_dinsert_eq_append rs _ ?_ hnd.2, List.append_assoc, List.singleton_append]
    intro r' hr'
    rw [keys, List.map_append, List.mem_append]
    rintro (hc | hc)
    · exact hdisj r' (List.mem_cons_of_mem _ hr') hc
    · have hc' : r'.name.value = r.name.value := List.mem_singleton.mp hc
      exact hnd.1 (hc' ▸ List.mem_map_of_mem (fun r => r.name.value) hr')

theorem keys_eq_names_of_inv : ∀ {d : Dict}, Inv d →
    keys d = (dvalues d).map (fun r => r.name.value)
  | [], _ => rfl
  | (k, v) :: rest, h => by
    have hv : v.name.value = k := h (k, v) (List.mem_cons_self _ _)
    rw [keys_cons, dvalues_cons, List.map_cons, hv,
      keys_eq_names_of_inv (fun e he => h e (List.mem_cons_of_mem _ he))]

theorem map_pair_of_inv : ∀ {d : Dict}, Inv d →
    (dvalues d).map (fun r => (r.name.value, r)) = d
  | [], _ => rfl
  | (k, v) :: rest, h => by
    have hv : v.name.value = k := h (k, v) (List.mem_cons_self _ _)
    rw [dvalues_cons, List.map_cons, hv,
      map_pair_of_inv (fun e he => h e (List.mem_cons_of_mem _ he))]

/-! Lemmas about the birthday scan of `get_upcoming_birthdays`. -/

theorem upcomingAux_sound (today : PyDate) (n : Int) :
    ∀ {recs l : List Record}, upcomingAux today n recs = some l →
      (∀ r ∈ l, r ∈ recs ∧ ∃ b bty, r.birthday = some b ∧
        projectThisYear today b = some bty ∧
        0 ≤ dateSub bty today ∧ dateSub bty today ≤ n) ∧
      (∀ r ∈ recs, ∀ b, r.birthday = some b →
        ∃ bty, projectThisYear today b = some bty ∧
          (0 ≤ dateSub bty today ∧ dateSub bty today ≤ n → r ∈ l))
  | [], l, h => by
    rw [upcomingAux] at h
    cases h
    exact ⟨fun r hr => absurd hr (List.not_mem_nil r),
      fun r hr => absurd hr (List.not_mem_nil r)⟩
  | r :: rs, l, h => by
    rw [upcomingAux] at h
    cases hb : r.birthday with
    | none =>
      simp only [hb] at h
      have ih := upcomingAux_sound today n h
      refine ⟨fun r' hr' => ?_, fun r' hr' b hb' => ?_⟩
      · obtain ⟨hmem, hrest⟩ := ih.1 r' hr'
        exact ⟨List.mem_cons_of_mem _ hmem, hrest⟩
      · rcases List.mem_cons.mp hr' with rfl | hr'
        · exact absurd (hb.symm.trans hb') (by simp)
        · exact ih.2 r' hr' b hb'
    | some b₀ =>
      simp only [hb] at h
      cases hp : projectThisYear today b₀ with
      | none =>
        simp only [hp] at h
        cases h
      | some bty₀ =>
        simp only [hp] at h
        cases hrec : upcomingAux today n rs with
        | none =>
          simp only [hrec] at h
          cases h
        | some rest =>
          simp only [hrec] at h
          have ih := upcomingAux_sound today n hrec
          by_cases hcond : 0 ≤ dateSub bty₀ today ∧ dateSub bty₀ today ≤ n
          · rw [if_pos hcond] at h
            cases h
            refine ⟨fun r' hr' => ?_, fun r' hr' b hb' => ?_⟩
            · rcases List.mem_cons.mp hr' with rfl | hr'
              · exact ⟨List.mem_cons_self _ _, b₀, bty₀, hb, hp, hcond.1, hcond.2⟩
              · obtain ⟨hm, hrest⟩ := ih.1 r' hr'
                exact ⟨List.mem_cons_of_mem _ hm, hrest⟩
            · rcases List.mem_cons.mp hr' with rfl | hr'
              · rw [hb] at hb'
                cases hb'
                exact ⟨bty₀, hp, fun _ => List.mem_cons_self _ _⟩
              · obtain ⟨bty, hproj, himp⟩ := ih.2 r' hr' b hb'
                exact ⟨bty, hproj, fun hc => List.mem_cons_of_mem _ (himp hc)⟩
          · rw [if_neg hcond] at h
            cases h
            refine ⟨fun r' hr' => ?_, fun r' hr' b hb' => ?_⟩
            · obtain ⟨hm, hrest⟩ := ih.1 r' hr'
              exact ⟨List.mem_cons_of_mem _ hm, hrest⟩
            · rcases List.mem_cons.mp hr' with rfl | hr'
              · rw [hb] at hb'
                cases hb'
                exact ⟨bty₀, hp, fun hc => absurd hc hcond⟩
              · exact ih.2 r' hr' b hb'

theorem upcomingAux_isSome (today : PyDate) (n : Int) :
    ∀ {recs : List Record},
      (∀ r ∈ recs, ∀ b, r.birthday = some b → (projectThisYear today b).isSome) →
      (upcomingAux today n recs).isSome
  | [], _ => by rw [upcomingAux]; rfl
  | r :: rs, h => by
    cases hb : r.birthday with
    | none =>
      simp only [upcomingAux, hb]
      exact upcomingAux_isSome today n (fun r' hr' => h r' (List.mem_cons_of_mem _ hr'))
    | some b =>
      have hproj := h r (List.mem_cons_self _ _) b hb
      cases hp : projectThisYear today b with
      | none => rw [hp] at hproj; cases hproj
      | some bty =>
        have ih := @upcomingAux_isSome today n rs
          (fun r' hr' => h r' (List.mem_cons_of_mem _ hr'))
        cases hrec : upcomingAux today n rs with
        | none => rw [hrec] at ih; cases ih
        | some rest =>
          simp only [upcomingAux, hb, hp, hrec]
          by_cases hcond : 0 ≤ dateSub bty today ∧ dateSub bty today ≤ n
          · rw [if_pos hcond]; rfl
          · rw [if_neg hcond]; rfl

/-! Lemmas about the result-set accumulation of `find_contacts_by_field`. -/

theorem mem_setAdd {r item : Record} {acc : List Record} :
    r ∈ setAdd item acc ↔ r = item ∨ r ∈ acc := by
  rw [setAdd]
  split
  · rename_i h
    constructor
    · exact fun hr => Or.inr hr
    · rintro (rfl | hr)
      · exact h
      · exact hr
  · rw [List.mem_append, List.mem_singleton, or_comm]

theorem nodup_setAdd {item : Record} {acc : List Record} (h : acc.Nodup) :
    (setAdd item acc).Nodup := by
  rw [setAdd]
  split
  · exact h
  · rename_i hne
    exact h.append (List.nodup_singleton _) (List.disjoint_singleton.mpr hne)

theorem foldl_guard_setAdd_mem (p : Record → Bool) :
    ∀ (items acc : List Record) (r : Record),
      r ∈ items.foldl (fun acc item => if p item then setAdd item acc else acc) acc ↔
        r ∈ acc ∨ (r ∈ items ∧ p r = true)
  | [], acc, r => by simp
  | item :: items, acc, r => by
    rw [List.foldl_cons, foldl_guard_setAdd_mem p items _ r]
    by_cases hp : p item = true
    · rw [if_pos hp, mem_setAdd]
      constructor
      · rintro ((rfl | hacc) | ⟨hmem, hpr⟩)
        · exact Or.inr ⟨List.mem_cons_self _ _, hp⟩
        · exact Or.inl hacc
        · exact Or.inr ⟨List.mem_cons_of_mem _ hmem, hpr⟩
      · rintro (hacc | ⟨hmem, hpr⟩)
        · exact Or.inl (Or.inr hacc)
        · rcases List.mem_cons.mp hmem with rfl | hmem
          · exact Or.inl (Or.inl rfl)
          · exact Or.inr ⟨hmem, hpr⟩
    · rw [if_neg hp]
      constructor
      · rintro (hacc | ⟨hmem, hpr⟩)
        · exact Or.inl hacc
        · exact Or.inr ⟨List.mem_cons_of_mem _ hmem, hpr⟩
      · rintro (hacc | ⟨hmem, hpr⟩)
        · exact Or.inl hacc
        · rcases List.mem_cons.mp hmem with rfl | hmem
          · exact absurd hpr hp
          · exact Or.inr ⟨hmem, hpr⟩

theorem foldl_guard_setAdd_nodup (p : Record → Bool) :
    ∀ (items : List Record) {acc : List Record}, acc.Nodup →
      (items.foldl (fun acc item => if p item then setAdd item acc else acc) acc).Nodup
  | [], _, h => h
  | item :: items, acc, h => by
    rw [List.foldl_cons]
    refine foldl_guard_setAdd_nodup p items ?_
    by_cases hp : p item = true
    · rw [if_pos hp]; exact nodup_setAdd h
    · rw [if_neg hp]; exact h

theorem bool_guard_any (l : List Note) (q : Note → Bool) :
    (!l.isEmpty && l.any q) = l.any q := by
  cases l <;> rfl

theorem fcbfStep_tag (phoneStr : Phone → String) (noteStr : Note → String)
    (value : String) (acc : List Record) (item : Record) :
    fcbfStep phoneStr noteStr "tag" value acc item =
      if item.notes.any (fun nt => nt.tags.any fun tg => pyInStr value.toLower tg.toLower)
      then setAdd item acc else acc := by
  rw [fcbfStep,
    show (("tag" : String) == "phone" || ("tag" : String) == "phones") = false from rfl,
    show (("tag" : String) == "note") = false from rfl,
    show (("tag" : String) == "tag") = true from rfl]
  simp only [Bool.false_eq_true, if_false, if_true, bool_guard_any]

/-! Lemmas about note deletion and title counting. -/

theorem countP_removeFirstTitle {t : String} :
    ∀ {ns ns' : List Note}, removeFirstTitle t ns = some ns' →
      ns'.countP (fun nt => nt.title == t) = ns.countP (fun nt => nt.title == t) - 1
  | [], _, h => by cases h
  | nt :: rest, ns', h => by
    rw [removeFirstTitle] at h
    by_cases ht : (nt.title == t) = true
    · rw [if_pos ht] at h
      cases h
      rw [List.countP_cons_of_pos (fun (x : Note) => x.title == t) _ ht, Nat.add_sub_cancel]
    · rw [if_neg ht] at h
      cases hrec : removeFirstTitle t rest with
      | none => rw [hrec] at h; cases h
      | some ns'' =>
        rw [hrec] at h
        simp only [Option.map] at h
        cases h
        rw [List.countP_cons_of_neg (fun (x : Note) => x.title == t) _ ht, List.countP_cons_of_neg (fun (x : Note) => x.title == t) _ ht,
          countP_removeFirstTitle hrec]

theorem removeFirstTitle_eq_none {t : String} :
    ∀ {ns : List Note}, removeFirstTitle t ns = none ↔
      ns.countP (fun nt => nt.title == t) = 0
  | [] => by simp [removeFirstTitle]
  | nt :: rest => by
    rw [removeFirstTitle]
    by_cases ht : (nt.title == t) = true
    · rw [if_pos ht, List.countP_cons_of_pos (fun (x : Note) => x.title == t) _ ht]
      simp
    · rw [if_neg ht, List.countP_cons_of_neg (fun (x : Note) => x.title == t) _ ht, Option.map_eq_none']
      exact removeFirstTitle_eq_none

theorem countTitled_cons (t k : String) (v : Record) (rest : Dict) :
    countTitled t ((k, v) :: rest)
      = v.notes.countP (fun nt => nt.title == t) + countTitled t rest := by
  rw [countTitled, countTitled, dvalues_cons, List.flatMap_cons, List.countP_append]

theorem countTitled_delete (t : String) :
    ∀ d : Dict, countTitled t (delete_note_by_title d t) = countTitled t d - 1
  | [] => rfl
  | (k, r) :: rest => by
    cases hrem : removeFirstTitle t r.notes with
    | some ns =>
      have hpos : 1 ≤ r.notes.countP (fun nt => nt.title == t) :=
        Nat.pos_of_ne_zero (fun h0 => by
          rw [removeFirstTitle_eq_none.mpr h0] at hrem
          cases hrem)
      simp only [delete_note_by_title, hrem]
      rw [countTitled_cons, countTitled_cons, countP_removeFirstTitle hrem]
      omega
    | none =>
      have h0 : r.notes.countP (fun nt => nt.title == t) = 0 :=
        removeFirstTitle_eq_none.mp hrem
      simp only [delete_note_by_title, hrem]
      rw [countTitled_cons, countTitled_cons, countTitled_delete t rest]
      omega

theorem delete_note_noop (t : String) :
    ∀ {d : Dict}, countTitled t d = 0 → delete_note_by_title d t = d
  | [], _ => rfl
  | (k, r) :: rest, h => by
    rw [countTitled_cons] at h
    have h1 : r.notes.countP (fun nt => nt.title == t) = 0 := by omega
    have h2 : countTitled t rest = 0 := by omega
    simp only [delete_note_by_title, removeFirstTitle_eq_none.mpr h1]
    rw [delete_note_noop t h2]

/-! The claims. -/

/-- C1: in every reachable directory state the invariant "each key equals
the stored record's internal name" is preserved by every mutating
operation — in particular `add_record`, `sort_records` and `update_name` —
and `update_name` either re-keys the entry and updates the record's
internal name field, or fails leaving the state unchanged. -/
theorem claim1_invariant_preservation (d : Dict) (hI : Inv d) :
    (∀ arg, Inv (add_record d arg).2) ∧
    (∀ name, Inv (delete d name).2) ∧
    Inv (sort_records d) ∧
    (∀ t, Inv (delete_note_by_title d t)) ∧
    (∀ name nn,
      Inv (update_name d name nn).2 ∧
      ((update_name d name nn).1 = .error .notFound → (update_name d name nn).2 = d) ∧
      (∀ res, (update_name d name nn).1 = .ok res →
        dget nn (update_name d name nn).2 = some res ∧ res.name.value = nn)) := by
  refine ⟨?_, ?_, ?_, ?_, ?_⟩
  · intro arg
    cases arg with
    | nonRecord => exact hI
    | record r =>
      by_cases h : r.name.value = ""
      · simp only [add_record, if_pos h]
        exact hI
      · simp only [add_record, if_neg h]
        exact inv_dinsert rfl hI
  · intro name
    by_cases h : dcontains name d = true
    · simp only [delete, if_pos h]
      exact inv_ddel hI
    · simp only [delete, if_neg h]
      exact hI
  · exact foldl_dinsert_inv _ (fun e he => absurd he (List.not_mem_nil e))
  · intro t
    exact inv_delete_note hI
  · intro name nn
    cases hpop : dpop name d with
    | none =>
      have heq : update_name d name nn = (.error .notFound, d) := by
        rw [update_name, hpop]
      rw [heq]
      exact ⟨hI, fun _ => rfl, fun res hres => nomatch hres⟩
    | some p =>
      obtain ⟨r, d₁⟩ := p
      have heq : update_name d name nn
          = (.ok (r.edit_name nn), dinsert nn (r.edit_name nn) d₁) := by
        simp only [update_name, hpop]
        rw [dmodify_dinsert]
      have hinv₁ : Inv d₁ := fun e he => hI e (dpop_mem_rest hpop e he)
      rw [heq]
      refine ⟨?_, ?_, ?_⟩
      · exact inv_dinsert (k := nn) (v := r.edit_name nn) rfl hinv₁
      · intro habs
        exact absurd habs (by simp)
      · intro res hres
        injection hres with hres'
        subst hres'
        exact ⟨dget_dinsert_self _ _ _, rfl⟩

/-- C1 witness: the concrete two-contact directory satisfies the
invariant, and sorting it preserves it. -/
theorem claim1_witness : Inv (sort_records bookAB) :=
  (claim1_invariant_preservation bookAB (by decide)).2.2.1

/-- C2: for every record with a birthday, assuming the call returns
(no `ValueError`), the record is listed by `get_upcoming_birthdays` iff
the birthday projected onto the current year (rolled forward a year when
strictly before today) lies within `0 ≤ delta_days ≤ n_days`. -/
theorem claim2_upcoming_window (today : PyDate) (d : Dict) (n : Int)
    (l : List Record) (r : Record) (b : PyDate) (_hn : 0 ≤ n)
    (hres : get_upcoming_birthdays today d n = some l)
    (hr : r ∈ dvalues d) (hb : r.birthday = some b) :
    r ∈ l ↔ ∃ bty, projectThisYear today b = some bty ∧
      0 ≤ dateSub bty today ∧ dateSub bty today ≤ n := by
  have h := @upcomingAux_sound today n (dvalues d) l hres
  constructor
  · intro hmem
    obtain ⟨-, b', bty, hb', hproj, h0, h1⟩ := h.1 r hmem
    rw [hb] at hb'
    cases hb'
    exact ⟨bty, hproj, h0, h1⟩
  · rintro ⟨bty, hproj, h0, h1⟩
    obtain ⟨bty', hproj', himp⟩ := h.2 r hr b hb
    rw [hproj] at hproj'
    cases hproj'
    exact himp ⟨h0, h1⟩

/-- C2 witness: with today = 2025-10-12 and a 5-day window, Alice
(birthday October 17) is returned, and the window condition holds. -/
theorem claim2_witness :
    recAlice ∈ [recAlice] ↔ ∃ bty,
      projectThisYear ⟨2025, 10, 12⟩ ⟨1990, 10, 17⟩ = some bty ∧
      0 ≤ dateSub bty ⟨2025, 10, 12⟩ ∧ dateSub bty ⟨2025, 10, 12⟩ ≤ 5 :=
  claim2_upcoming_window ⟨2025, 10, 12⟩ bookAB 5 [recAlice] recAlice ⟨1990, 10, 17⟩
    (by decide) (by decide) (by decide) rfl

/-- C3: renaming a missing key fails with `NotFound` (`KeyError` raised by
`pop` before any mutation), leaving the mapping unchanged — in particular
no entry is created under the new name. -/
theorem claim3_rename_missing (d : Dict) (oldName newName : String)
    (h : dget oldName d = none) :
    update_name d oldName newName = (.error .notFound, d) := by
  rw [update_name, dpop_eq_none_of_dget h]

/-- C3 witness: renaming the absent "Zoe" fails and leaves the
directory unchanged. -/
theorem claim3_witness :
    update_name bookAB "Zoe" "Queen" = (.error .notFound, bookAB) :=
  claim3_rename_missing bookAB "Zoe" "Queen" (by decide)

/-- C4 counterexample: the claim "lookup operations never raise" is false
for `get_upcoming_birthdays`: a February-29 birthday projected onto the
non-leap year 2025 makes `date.replace(year=2025)` raise `ValueError`
(embedded as `none`). -/
theorem claim4_counterexample :
    get_upcoming_birthdays ⟨2025, 1, 1⟩ bookLeap 7 = none := by decide

/-- C4 (amended): `get_upcoming_birthdays` returns a list whenever every
stored birthday projects onto a valid date of the current (and, after the
roll-forward, next) year; the remaining lookups (`find_contact`,
`find_phone`, `find_contacts_by_field`, `find_note_by_title`,
`find_notes_by_tag`) are total functions of the embedding, signalling
absence as `none` or an empty list. -/
theorem claim4_lookup_total_amended (today : PyDate) (d : Dict) (n : Int)
    (h : ∀ r ∈ dvalues d, ∀ b, r.birthday = some b →
      (projectThisYear today b).isSome) :
    ∃ l, get_upcoming_birthdays today d n = some l :=
  Option.isSome_iff_exists.mp (@upcomingAux_isSome today n (dvalues d) h)

/-- C4 witness: on the two-contact directory every birthday projects
validly, so the call returns a list. -/
theorem claim4_witness :
    ∃ l, get_upcoming_birthdays ⟨2025, 10, 12⟩ bookAB 10 = some l :=
  claim4_lookup_total_amended ⟨2025, 10, 12⟩ bookAB 10 (by decide)

/-- C5: `add_record` fails with `InvalidRecord` on a non-Record argument
or an empty name, leaving the mapping unchanged; on success it inserts or
silently replaces the entry keyed by the record's name. -/
theorem claim5_add (d : Dict) :
    add_record d .nonRecord = (.error .invalidRecord, d) ∧
    (∀ r, r.name.value = "" →
      add_record d (.record r) = (.error .invalidRecord, d)) ∧
    (∀ r, r.name.value ≠ "" →
      add_record d (.record r) = (.ok (), dinsert r.name.value r d) ∧
      dget r.name.value (add_record d (.record r)).2 = some r) := by
  refine ⟨rfl, fun r h => ?_, fun r h => ?_⟩
  · simp only [add_record, if_pos h]
  · have heq : add_record d (.record r) = (.ok (), dinsert r.name.value r d) := by
      simp only [add_record, if_neg h]
    rw [heq]
    exact ⟨rfl, dget_dinsert_self _ _ _⟩

/-- C5 witness: adding the empty-named record fails and leaves the
directory unchanged; adding Bob succeeds. -/
theorem claim5_witness :
    add_record bookAB (.record recEmpty) = (.error .invalidRecord, bookAB) ∧
    add_record bookAB (.record recBob) = (.ok (), dinsert "Bob" recBob bookAB) :=
  ⟨(claim5_add bookAB).2.1 recEmpty rfl,
    ((claim5_add bookAB).2.2 recBob (by decide)).1⟩

/-- C6: on a well-formed dict, `delete` removes a present entry (after
which `find_contact` returns `None`) and fails with `NotFound` on an
absent one, leaving the mapping unmodified. -/
theorem claim6_delete (d : Dict) (name : String) (hWF : WF d) :
    (dcontains name d = true →
      delete d name = (.ok "Contact deleted.", ddel name d) ∧
      (find_contact (delete d name).2 name).1 = none) ∧
    (dcontains name d = false → delete d name = (.error .notFound, d)) := by
  constructor
  · intro h
    have heq : delete d name = (.ok "Contact deleted.", ddel name d) := by
      simp only [delete, if_pos h]
    rw [heq]
    exact ⟨rfl, dget_ddel_of_wf hWF⟩
  · intro h
    simp only [delete, h]
    rfl

/-- C6 witness: deleting "Alice" from the two-contact directory succeeds
and a subsequent lookup of "Alice" returns `None`. -/
theorem claim6_witness :
    delete bookAB "Alice" = (.ok "Contact deleted.", ddel "Alice" bookAB) ∧
    (find_contact (delete bookAB "Alice").2 "Alice").1 = none :=
  (claim6_delete bookAB "Alice" (by decide)).1 (by decide)

/-- C7: `find_contacts_by_field("tag", value)` returns exactly the set of
records of the directory having at least one note with at least one tag
containing `value` case-insensitively, without duplicates. -/
theorem claim7_tag_search (phoneStr : Phone → String) (noteStr : Note → String)
    (d : Dict) (value : String) :
    (∀ r, r ∈ find_contacts_by_field phoneStr noteStr d "tag" value ↔
      r ∈ dvalues d ∧ tagMatches value r) ∧
    (find_contacts_by_field phoneStr noteStr d "tag" value).Nodup := by
  have hstep : fcbfStep phoneStr noteStr "tag" value = fun acc item =>
      if item.notes.any (fun nt => nt.tags.any fun tg => pyInStr value.toLower tg.toLower)
      then setAdd item acc else acc :=
    funext fun acc => funext fun item => fcbfStep_tag phoneStr noteStr value acc item
  constructor
  · intro r
    rw [find_contacts_by_field, hstep, foldl_guard_setAdd_mem]
    simp only [List.not_mem_nil, false_or]
    refine and_congr_right fun _ => ?_
    rw [tagMatches]
    simp [List.any_eq_true]
  · rw [find_contacts_by_field, hstep]
    exact foldl_guard_setAdd_nodup _ _ List.nodup_nil

/-- C8 counterexample: `delete_note_by_title` is not idempotent when two
notes share a title — the second call removes the second note. -/
theorem claim8_counterexample :
    delete_note_by_title (delete_note_by_title bookTwoNotes "t") "t"
      ≠ delete_note_by_title bookTwoNotes "t" := by decide

/-- C8 (amended): when at most one note in the whole directory bears the
title, a second `delete_note_by_title` call changes nothing after the
first, and a call with no matching note is a no-op rather than a
failure. -/
theorem claim8_delete_note_idem (d : Dict) (t : String)
    (h : countTitled t d ≤ 1) :
    delete_note_by_title (delete_note_by_title d t) t = delete_note_by_title d t ∧
    (countTitled t d = 0 → delete_note_by_title d t = d) := by
  have hafter : countTitled t (delete_note_by_title d t) = countTitled t d - 1 :=
    countTitled_delete t d
  have h0 : countTitled t (delete_note_by_title d t) = 0 := by omega
  exact ⟨delete_note_noop t h0, fun hz => delete_note_noop t hz⟩

/-- C8 witness: deleting Alice's uniquely-titled note twice equals
deleting it once. -/
theorem claim8_witness :
    delete_note_by_title (delete_note_by_title bookAB "todo") "todo"
      = delete_note_by_title bookAB "todo" :=
  (claim8_delete_note_idem bookAB "todo" (by decide)).1

/-- C9: `sort_records` puts the mapping in ascending lexicographic order
of record names, is idempotent, and is a no-op on an already-sorted
well-formed directory. -/
theorem claim9_sort (d : Dict) :
    List.Sorted (· ≤ ·) (keys (sort_records d)) ∧
    sort_records (sort_records d) = sort_records d ∧
    (Inv d → WF d → List.Sorted nameLe (dvalues d) → sort_records d = d) := by
  have noop : ∀ e : Dict, Inv e → WF e → List.Sorted nameLe (dvalues e) →
      sort_records e = e := by
    intro e hIe hWe hSe
    rw [sort_records, hSe.insertionSort_eq, dictOfList,
      foldl_dinsert_eq_append (dvalues e) []
        (fun r _ hc => absurd hc (List.not_mem_nil _))
        (by rw [← keys_eq_names_of_inv hIe]; exact hWe),
      List.nil_append, map_pair_of_inv hIe]
  have hsorted : List.Sorted nameLe (List.insertionSort nameLe (dvalues d)) :=
    List.sorted_insertionSort nameLe (dvalues d)
  have hk : List.Sublist (keys (sort_records d))
      ((List.insertionSort nameLe (dvalues d)).map (fun r => r.name.value)) := by
    have := foldl_dinsert_keys_sublist (List.insertionSort nameLe (dvalues d)) []
    simpa using this
  have hnames : List.Sorted (· ≤ ·)
      ((List.insertionSort nameLe (dvalues d)).map (fun r => r.name.value)) :=
    List.pairwise_map.mpr (hsorted.imp (fun hab => hab))
  have part1 : List.Sorted (· ≤ ·) (keys (sort_records d)) := hnames.sublist hk
  have hinvD : Inv (sort_records d) :=
    foldl_dinsert_inv _ (fun e he => absurd he (List.not_mem_nil e))
  have hwfD : WF (sort_records d) := foldl_dinsert_wf _ List.nodup_nil
  have hkeysD : keys (sort_records d)
      = (dvalues (sort_records d)).map (fun r => r.name.value) :=
    keys_eq_names_of_inv hinvD
  have hsortedD : List.Sorted nameLe (dvalues (sort_records d)) := by
    have h1 := part1
    rw [hkeysD] at h1
    exact (List.pairwise_map.mp h1).imp (fun hab => hab)
  exact ⟨part1, noop _ hinvD hwfD hsortedD, fun hI hW hS => noop d hI hW hS⟩

/-- C9 witness: sorting the already-sorted concrete directory is a
no-op. -/
theorem claim9_witness : sort_records bookAB = bookAB := by
  have hAB : nameLe recAlice recBob := String.le_iff_toList_le.mpr (by decide)
  have hs : List.Sorted nameLe (dvalues bookAB) :=
    List.Pairwise.cons
      (fun c hc => by rcases List.mem_singleton.mp hc with rfl; exact hAB)
      (List.pairwise_singleton nameLe recBob)
  exact (claim9_sort bookAB).2.2 (by decide) (by decide) hs

/-- C10: the read operations `get_owner`, `find_phone`, `find_contact`
and `find_notes_by_tag` leave the mapping — keys, records and iteration
order — exactly as it was. -/
theorem claim10_reads_pure (d : Dict) (name phone tag : String) :
    (get_owner d).2 = d ∧ (find_phone d phone).2 = d ∧
    (find_contact d name).2 = d ∧ (find_notes_by_tag d tag).2 = d :=
  ⟨rfl, rfl, rfl, rfl⟩

end KeeperBot
